import Mathlib

/-!
Shallow embedding of the chunked audio-transcription pipeline
(`safe_delete`, `split_audio`, `transcribe_chunk`, `process_long_audio`).

Durations are in milliseconds, modelled as `Nat`.  External effects
(filesystem, remote service, sleeps, UI reports) are modelled by
oracles passed as function arguments, and by an explicit event trace.
-/

namespace AudioTranscript

/-- Outcome of one `os.unlink` call on a path, as seen by `safe_delete`:
success, a `PermissionError`, or any other exception. -/
inductive UnlinkResult where
  | ok
  | permissionError
  | otherError
deriving DecidableEq

/-- Observable side effects of `safe_delete`: the `gc.collect()` pass, the
fixed `time.sleep(1)`, and the `st.warning` report. -/
inductive SDEvent where
  | gcCollect
  | sleep1
  | warn
deriving DecidableEq

/-- Embedding of `safe_delete` (src/project1.2.py lines 40-59).
`ex` is the result of `os.path.exists(file_path)`; `first` and `second` are
the outcomes of the first and the retried `os.unlink`.  Returns the boolean
result together with the emitted side-effect events.  The Python function
catches every exception internally, which is why the embedding is a total
function into `Bool × List SDEvent`. -/
def safe_delete (ex : Bool) (first second : UnlinkResult) : Bool × List SDEvent :=
  if ex then
    match first with
    | .ok => (true, [])
    | .permissionError =>
      match second with
      | .ok => (true, [.gcCollect, .sleep1])
      | _ => (false, [.gcCollect, .sleep1, .warn])
    | .otherError => (false, [.warn])
  else (false, [])

/-- A chunk produced by `split_audio`: the slice `audio[start : start+dur]`
of the source, with `start` and `dur` in milliseconds. -/
structure Chunk where
  start : Nat
  dur : Nat
deriving DecidableEq

/-- Python `range(start, stop, step)` for a positive `step`. -/
def pyRange (start stop step : Nat) : List Nat :=
  (List.range ((stop - start + step - 1) / step)).map (fun k => start + k * step)

/-- Embedding of `split_audio` (lines 62-70) on a successfully loaded source
of duration `D` ms.  `audio[i : i+chunk_ms]` is the slice starting at `i` of
duration `min (i+chunk_ms) D - i`. -/
def split_audio (D : Nat) (chunk_minutes : Nat := 2) : List Chunk :=
  let chunk_ms := chunk_minutes * 60 * 1000
  (pyRange 0 D chunk_ms).map (fun i => ⟨i, min (i + chunk_ms) D - i⟩)

/-- Default chunk value used with `List.getD`. -/
def defaultChunk : Chunk := ⟨0, 0⟩

/-- C1's property of `split_audio`, stated over the chunk-size parameter `m`
(minutes) and the source duration `D` (ms): chunk count is `ceil (D / C)`,
windows are consecutive and non-overlapping in partition order, all of
duration `C` except the last, whose duration is `D % C` when that is nonzero
and `C` otherwise; a zero-duration source yields no chunks. -/
def SplitSpec (m D : Nat) : Prop :=
  let C := m * 60 * 1000
  let cs := split_audio D m
  cs.length = (D + C - 1) / C ∧
  (D = 0 → cs = []) ∧
  (∀ k, k < cs.length → (cs.getD k defaultChunk).start = k * C) ∧
  (∀ k, k + 1 < cs.length → (cs.getD k defaultChunk).dur = C) ∧
  (∀ k, k + 1 < cs.length →
    (cs.getD (k + 1) defaultChunk).start
      = (cs.getD k defaultChunk).start + (cs.getD k defaultChunk).dur) ∧
  (0 < D → (cs.getD (cs.length - 1) defaultChunk).dur = if D % C = 0 then C else D % C)

/-- Observable events of the pipeline, in program order: the progress
report for a chunk, temp-file creation, a successful chunk export, one
remote transcription call (with its 0-based attempt number), the retry
warning, a `time.sleep` of the given number of seconds, the per-chunk
failure report, the split-failure report, the top-level processing-error
report, the invocation of `safe_delete` on chunk `i`'s temp file (with its
boolean result), the `gc.collect()` pass inside `safe_delete`, and the
could-not-delete warning for chunk `i`'s temp file. -/
inductive Ev where
  | progressE (i n : Nat)
  | createTempE (i : Nat)
  | exportE (i : Nat)
  | remoteCallE (attempt : Nat)
  | warnRetryE (secs : Nat)
  | sleepE (secs : Nat)
  | errorChunkE
  | errorSplitE
  | errorProcE
  | deleteE (i : Nat) (ok : Bool)
  | gcE
  | warnDeleteE (i : Nat)
deriving DecidableEq

/-- Embeds the side effects of a `safe_delete` call on chunk `i`'s temp
file into the pipeline trace (the warning message names the file, hence
the chunk index on `warnDeleteE`). -/
def sdEvToEv (i : Nat) : SDEvent → Ev
  | .gcCollect => .gcE
  | .sleep1 => .sleepE 1
  | .warn => .warnDeleteE i

/-- One iteration of the retry loop of `transcribe_chunk` (lines 74-89),
driven by the list of remaining attempt numbers (`for attempt in
range(retries)`).  `outcome a` is the result of the remote call on attempt
`a`: `some text` on success, `none` when the call raises.  Returns the text
produced by the function together with the events of the loop. -/
def transcribe_chunkGo (outcome : Nat → Option String) (retries : Nat) :
    List Nat → String × List Ev
  | [] => ("", [])
  | a :: rest =>
    match outcome a with
    | some t => (t, [.remoteCallE a])
    | none =>
      if a < retries - 1 then
        let w := 5 * 2 ^ a
        let r := transcribe_chunkGo outcome retries rest
        (r.1, .remoteCallE a :: .warnRetryE w :: .sleepE w :: r.2)
      else ("", [.remoteCallE a, .errorChunkE])

/-- Embedding of `transcribe_chunk` (lines 72-90) with its event trace. -/
def transcribe_chunkT (outcome : Nat → Option String) (retries : Nat := 3) :
    String × List Ev :=
  transcribe_chunkGo outcome retries (List.range retries)

/-- The text returned by `transcribe_chunk` (lines 72-90). -/
def transcribe_chunk (outcome : Nat → Option String) (retries : Nat := 3) : String :=
  (transcribe_chunkT outcome retries).1

/-- The sleep durations (seconds) occurring in a trace, in order. -/
def sleepsOf (evs : List Ev) : List Nat :=
  evs.filterMap (fun e => match e with | .sleepE s => some s | _ => none)

/-- The paragraph separator `"\n\n"` used by `"\n\n".join(full_transcript)`
(line 120). -/
def sep : String := "\n\n"

/-- The full event block of one successful loop iteration of
`process_long_audio` (lines 103-118) for chunk `i` of `n`: progress report,
temp-file creation, export, the transcription attempts, then the immediate
`safe_delete` with its side effects. -/
def chunkBlock (oc : Nat → Nat → Option String) (d1 d2 : Nat → UnlinkResult)
    (n i : Nat) : List Ev :=
  let tr := transcribe_chunkT (oc i) 3
  let sd := safe_delete true (d1 i) (d2 i)
  [.progressE (i + 1) n, .createTempE i, .exportE i] ++ tr.2
    ++ (.deleteE i sd.1 :: sd.2.map (sdEvToEv i))

/-- The per-chunk loop of `process_long_audio` (lines 103-118).  `eo i` says
whether `chunk.export` succeeds for chunk `i`; when it is `false` the export
raises, which the loop does not catch: the accumulated events are returned
in the `error` case, to be handled by the top-level `except`.  `oc i` is the
remote-call oracle for chunk `i`, and `d1 i`, `d2 i` the unlink oracles for
its temp file (which exists when `safe_delete` is called).  `n` is the total
chunk count used by the progress report, `i` the index of the first chunk of
`chunks`. -/
def processChunksT (eo : Nat → Bool) (oc : Nat → Nat → Option String)
    (d1 d2 : Nat → UnlinkResult) (n : Nat) :
    List Chunk → Nat → Except (List Ev) (List String × List Ev)
  | [], _ => .ok ([], [])
  | _ :: rest, i =>
    if eo i then
      let b := chunkBlock oc d1 d2 n i
      match processChunksT eo oc d1 d2 n rest (i + 1) with
      | .ok (ts, evs) => .ok ((transcribe_chunkT (oc i) 3).1 :: ts, b ++ evs)
      | .error evs => .error (b ++ evs)
    else .error [.progressE (i + 1) n, .createTempE i]

/-- `split_audio` on a source path: `load = some D` when
`AudioSegment.from_file` yields a source of duration `D` ms, `none` when it
raises, in which case the `except` branch (lines 68-70) reports the error
and returns the empty list. -/
def split_audioT (load : Option Nat) (chunk_minutes : Nat := 2) :
    List Chunk × List Ev :=
  match load with
  | some D => (split_audio D chunk_minutes, [])
  | none => ([], [.errorSplitE])

/-- Embedding of `process_long_audio` (lines 92-124) with its event trace:
split the source (default 2-minute chunks), return `""` when there are no
chunks, otherwise run the per-chunk loop; any exception escaping the loop is
caught by the top-level `except`, which reports a processing error and
returns `""`, discarding the partial transcript. -/
def process_long_audioT (load : Option Nat) (eo : Nat → Bool)
    (oc : Nat → Nat → Option String) (d1 d2 : Nat → UnlinkResult) :
    String × List Ev :=
  let s := split_audioT load 2
  if s.1.isEmpty then ("", s.2)
  else
    match processChunksT eo oc d1 d2 s.1.length s.1 0 with
    | .ok (ts, evs) => (String.intercalate sep ts, s.2 ++ evs)
    | .error evs => ("", s.2 ++ evs ++ [.errorProcE])

/-- The transcript returned by `process_long_audio` (lines 92-124). -/
def process_long_audio (load : Option Nat) (eo : Nat → Bool)
    (oc : Nat → Nat → Option String) (d1 d2 : Nat → UnlinkResult) : String :=
  (process_long_audioT load eo oc d1 d2).1

/-- The list of per-chunk transcription results for the first `N` chunks,
in sequence-index order. -/
def transcriptList (oc : Nat → Nat → Option String) (N : Nat) : List String :=
  (List.range N).map (fun j => transcribe_chunk (oc j) 3)

/-- Whether an event creates or ends the life of a temp file. -/
def touchesTemp : Ev → Bool
  | .createTempE _ => true
  | .deleteE _ _ => true
  | _ => false

/-- One step of the in-flight temp-file tracker: `s` is the list of chunk
indices whose temp file has been created but not yet passed to
`safe_delete`. -/
def inFlightStep (s : List Nat) : Ev → List Nat
  | .createTempE i => i :: s
  | .deleteE i _ => s.erase i
  | _ => s

/-- Checks that, starting from in-flight set `s`, after every event of the
trace at most one temp file is in flight. -/
def chkInFlight : List Nat → List Ev → Bool
  | _, [] => true
  | s, e :: rest =>
    let s2 := inFlightStep s e
    decide (s2.length ≤ 1) && chkInFlight s2 rest

/-- C2's property: on a source of duration `D`, the transcript is the
paragraph-separator join of the per-chunk transcription results in
sequence-index order, and that list has one entry per chunk. -/
def OrderedTranscriptSpec (D : Nat) (eo : Nat → Bool)
    (oc : Nat → Nat → Option String) (d1 d2 : Nat → UnlinkResult) : Prop :=
  let N := (split_audio D 2).length
  process_long_audio (some D) eo oc d1 d2 = String.intercalate sep (transcriptList oc N) ∧
  (transcriptList oc N).length = N

/-- C3's property: chunk `i`'s remote call failing on all attempts yields
the empty string for that chunk, after an error report, and the job's
transcript still has one paragraph per chunk with the empty string at
index `i` (not a missing index, not an abort). -/
def FailedChunkSpec (D i : Nat) (eo : Nat → Bool)
    (oc : Nat → Nat → Option String) (d1 d2 : Nat → UnlinkResult) : Prop :=
  let N := (split_audio D 2).length
  transcribe_chunk (oc i) 3 = "" ∧
  Ev.errorChunkE ∈ (transcribe_chunkT (oc i) 3).2 ∧
  process_long_audio (some D) eo oc d1 d2 = String.intercalate sep (transcriptList oc N) ∧
  (transcriptList oc N).length = N ∧
  (transcriptList oc N).getD i "MISSING" = ""

/-- C4's amended property: the first export failure, at chunk `i`, aborts
the job: the transcript is empty, a processing error is reported, no chunk
after `i` is started, and chunk `i`'s temp file is never passed to
`safe_delete`. -/
def ExportAbortSpec (D i : Nat) (eo : Nat → Bool)
    (oc : Nat → Nat → Option String) (d1 d2 : Nat → UnlinkResult) : Prop :=
  let r := process_long_audioT (some D) eo oc d1 d2
  r.1 = "" ∧
  Ev.errorProcE ∈ r.2 ∧
  (∀ j, i < j → Ev.createTempE j ∉ r.2) ∧
  (∀ b, Ev.deleteE i b ∉ r.2)

/-- C9's amended property: when every export succeeds, the trace is exactly
the concatenation of the per-chunk blocks (create, export, transcribe, then
the immediate delete, before the next chunk starts), at most one temp file
is in flight at any instant, and every created temp file is passed to
`safe_delete`, whose failure is always accompanied by a warning naming that
file. -/
def TempLifecycleSpec (D : Nat) (eo : Nat → Bool)
    (oc : Nat → Nat → Option String) (d1 d2 : Nat → UnlinkResult) : Prop :=
  let r := process_long_audioT (some D) eo oc d1 d2
  let N := (split_audio D 2).length
  r.2 = ((List.range N).map (fun i => chunkBlock oc d1 d2 N i)).flatten ∧
  chkInFlight [] r.2 = true ∧
  ∀ i, i < N →
    Ev.createTempE i ∈ r.2 ∧
    Ev.deleteE i (safe_delete true (d1 i) (d2 i)).1 ∈ r.2 ∧
    ((safe_delete true (d1 i) (d2 i)).1 = false → Ev.warnDeleteE i ∈ r.2)

-- Helper lemmas ----------------------------------------------------------

theorem getD_range_map {α : Type} (f : Nat → α) (n k : Nat) (d : α) (h : k < n) :
    ((List.range n).map f).getD k d = f k := by
  have hlen : k < ((List.range n).map f).length := by simpa using h
  rw [List.getD_eq_getElem _ _ hlen]
  simp

theorem split_audio_eq (D m : Nat) :
    split_audio D m
      = (List.range ((D + m * 60 * 1000 - 1) / (m * 60 * 1000))).map
          (fun k => ⟨k * (m * 60 * 1000),
                     min (k * (m * 60 * 1000) + m * 60 * 1000) D - k * (m * 60 * 1000)⟩) := by
  simp [split_audio, pyRange, List.map_map, Function.comp_def]

theorem lt_ceil_div_iff (C D k : Nat) (hC : 0 < C) :
    k < (D + C - 1) / C ↔ k * C < D := by
  have h1 : k < (D + C - 1) / C ↔ k + 1 ≤ (D + C - 1) / C := Iff.rfl
  rw [h1, Nat.le_div_iff_mul_le hC]
  have h2 : (k + 1) * C = k * C + C := by ring
  rw [h2]
  omega

/-- C1: for every source of duration `D` ms and chunk size `C = m * 60000` ms
with `m > 0`, `split_audio` produces exactly `ceil (D / C)` chunks forming
consecutive, non-overlapping windows in partition order, each of duration
`C` except the final chunk, whose duration is `D % C` when that is nonzero
(clamped, never padded); when `D = 0` the result is empty. -/
theorem split_audio_spec (m D : Nat) (hm : 0 < m) : SplitSpec m D := by
  have hC : 0 < m * 60 * 1000 := by positivity
  set C := m * 60 * 1000 with hCdef
  set n := (D + C - 1) / C with hn
  have hlt : ∀ k, k < n ↔ k * C < D := fun k => lt_ceil_div_iff C D k hC
  have heq := split_audio_eq D m
  rw [← hCdef, ← hn] at heq
  have hlen : (split_audio D m).length = n := by rw [heq]; simp
  have hget : ∀ k, k < n →
      (split_audio D m).getD k defaultChunk
        = ⟨k * C, min (k * C + C) D - k * C⟩ := by
    intro k hk
    rw [heq, getD_range_map _ _ _ _ hk]
  refine ⟨hlen, ?_, ?_, ?_, ?_, ?_⟩
  · intro hD
    subst hD
    have : n = 0 := by
      by_contra h
      have := (hlt 0).mp (by omega)
      omega
    rw [heq, this]
    rfl
  · intro k hk
    rw [hlen] at hk
    rw [hget k hk]
  · intro k hk
    rw [hlen] at hk
    have hk1 : k < n := by omega
    have hkC : (k + 1) * C < D := (hlt (k + 1)).mp (by omega)
    have : k * C + C ≤ D := by
      have : (k + 1) * C = k * C + C := by ring
      omega
    rw [hget k hk1]
    simp only [defaultChunk]
    rw [min_eq_left this]
    omega
  · intro k hk
    rw [hlen] at hk
    have hk1 : k < n := by omega
    have hkC : (k + 1) * C < D := (hlt (k + 1)).mp (by omega)
    have hle : k * C + C ≤ D := by
      have : (k + 1) * C = k * C + C := by ring
      omega
    rw [hget k hk1, hget (k + 1) hk]
    simp only
    rw [min_eq_left hle]
    have : (k + 1) * C = k * C + C := by ring
    omega
  · intro hD
    have hn0 : 0 < n := by
      rw [hlt 0]
      omega
    have hlast : n - 1 < n := by omega
    have hx : (n - 1) * C < D := (hlt (n - 1)).mp hlast
    have hD2 : D ≤ (n - 1) * C + C := by
      have hnn : ¬ n < n := by omega
      have := (hlt n).not.mp hnn
      have hsucc : (n - 1 + 1) * C = (n - 1) * C + C := by ring
      have : ¬ n * C < D := this
      have hnn1 : n = n - 1 + 1 := by omega
      rw [hnn1] at this
      omega
    rw [hlen, hget (n - 1) hlast]
    simp only
    rw [min_eq_right hD2]
    set x := (n - 1) * C with hxdef
    set d := D - x with hd
    have hDx : D = x + d := by omega
    have hmod : D % C = d % C := by
      rw [hDx, hxdef]
      rw [Nat.mul_comm]
      rw [Nat.add_comm]
      exact Nat.add_mul_mod_self_left d C (n - 1)
    rcases Nat.lt_or_ge d C with hdC | hdC
    · have : D % C = d := by rw [hmod]; exact Nat.mod_eq_of_lt hdC
      rw [this]
      have hd0 : d ≠ 0 := by omega
      simp [hd0]
    · have hdCeq : d = C := by omega
      have : D % C = 0 := by rw [hmod, hdCeq]; simp
      rw [this]
      simp [hdCeq]

/-- C1 witness: the spec scenario `D = 150000` ms with the default chunk
size of 2 minutes. -/
theorem split_audio_spec_witness : 0 < 2 ∧ SplitSpec 2 150000 :=
  ⟨by decide, split_audio_spec 2 150000 (by decide)⟩

/-- C8: `safe_delete` never propagates an exception (it is a total function
into `Bool × List SDEvent`); when the file exists, a first-unlink
`PermissionError` triggers a `gc.collect()` finalization pass, a fixed
1-second sleep and exactly one retried unlink; if the retry also fails it
warns and returns `false`; any other unlink failure warns and returns
`false`. -/
theorem safe_delete_never_throws (ex : Bool) (f s : UnlinkResult) (hex : ex = true) :
    (f = .ok → safe_delete ex f s = (true, [])) ∧
    (f = .permissionError → s = .ok → safe_delete ex f s = (true, [.gcCollect, .sleep1])) ∧
    (f = .permissionError → s ≠ .ok →
      safe_delete ex f s = (false, [.gcCollect, .sleep1, .warn])) ∧
    (f = .otherError → safe_delete ex f s = (false, [.warn])) := by
  subst hex
  cases f <;> cases s <;> simp [safe_delete]

/-- C8 witness: an existing file whose first unlink hits a
`PermissionError` and whose retried unlink fails as well. -/
theorem safe_delete_never_throws_witness :
    true = true ∧
    safe_delete true .permissionError .otherError = (false, [.gcCollect, .sleep1, .warn]) :=
  ⟨rfl, (safe_delete_never_throws true .permissionError .otherError rfl).2.2.1 rfl
    (by intro h; cases h)⟩

/-- C10: on a path that does not exist, `safe_delete` returns `false` with
no warning and no other side effect (the `if os.path.exists` guard falls
through to the trailing `return False`), regardless of what the unlink
oracles would have done. -/
theorem safe_delete_missing_file (f s : UnlinkResult) :
    safe_delete false f s = (false, []) := by
  simp [safe_delete]

theorem range_map_succ {α : Type} (g : Nat → α) (l : Nat) :
    (List.range (l + 1)).map g = g 0 :: (List.range l).map (fun k => g (k + 1)) := by
  rw [List.range_succ_eq_map]
  simp [List.map_map, Function.comp_def]

theorem processChunksT_ok (eo : Nat → Bool) (oc : Nat → Nat → Option String)
    (d1 d2 : Nat → UnlinkResult) (n : Nat) (he : ∀ j, eo j = true) :
    ∀ (chunks : List Chunk) (i : Nat),
      processChunksT eo oc d1 d2 n chunks i
        = .ok ((List.range chunks.length).map (fun k => transcribe_chunk (oc (i + k)) 3),
               ((List.range chunks.length).map
                 (fun k => chunkBlock oc d1 d2 n (i + k))).flatten) := by
  intro chunks
  induction chunks with
  | nil => intro i; rfl
  | cons c rest ih =>
    intro i
    have harg1 : (fun k => transcribe_chunk (oc (i + (k + 1))) 3)
        = (fun k => transcribe_chunk (oc (i + 1 + k)) 3) := by
      funext k
      rw [show i + (k + 1) = i + 1 + k from by omega]
    have harg2 : (fun k => chunkBlock oc d1 d2 n (i + (k + 1)))
        = (fun k => chunkBlock oc d1 d2 n (i + 1 + k)) := by
      funext k
      rw [show i + (k + 1) = i + 1 + k from by omega]
    simp only [processChunksT, he i, if_true, ih (i + 1)]
    simp only [List.length_cons, range_map_succ, Nat.add_zero, List.flatten_cons,
      harg1, harg2]
    rfl

theorem processChunksT_err_exists (eo : Nat → Bool) (oc : Nat → Nat → Option String)
    (d1 d2 : Nat → UnlinkResult) (n : Nat) :
    ∀ (chunks : List Chunk) (i : Nat), (∃ k, k < chunks.length ∧ eo (i + k) = false) →
      ∃ evs, processChunksT eo oc d1 d2 n chunks i = .error evs := by
  intro chunks
  induction chunks with
  | nil =>
    intro i h
    obtain ⟨k, hk, _⟩ := h
    simp at hk
  | cons c rest ih =>
    intro i h
    obtain ⟨k, hk, hf⟩ := h
    by_cases h0 : eo i = true
    · cases k with
      | zero =>
        rw [Nat.add_zero, h0] at hf
        cases hf
      | succ k' =>
        obtain ⟨evs, hevs⟩ := ih (i + 1)
          ⟨k', by simp at hk; omega, by rw [show i + 1 + k' = i + (k' + 1) from by omega]; exact hf⟩
        refine ⟨chunkBlock oc d1 d2 n i ++ evs, ?_⟩
        simp only [processChunksT, h0, if_true, hevs]
    · have h0' : eo i = false := by revert h0; cases eo i <;> simp
      exact ⟨[.progressE (i + 1) n, .createTempE i],
        by simp only [processChunksT, h0', Bool.false_eq_true, if_false]⟩

theorem processChunksT_err_trace (eo : Nat → Bool) (oc : Nat → Nat → Option String)
    (d1 d2 : Nat → UnlinkResult) (n : Nat) :
    ∀ (chunks : List Chunk) (i0 i : Nat), i0 ≤ i → i - i0 < chunks.length →
      eo i = false → (∀ j, i0 ≤ j → j < i → eo j = true) →
      processChunksT eo oc d1 d2 n chunks i0
        = .error (((List.range (i - i0)).map
              (fun k => chunkBlock oc d1 d2 n (i0 + k))).flatten
            ++ [.progressE (i + 1) n, .createTempE i]) := by
  intro chunks
  induction chunks with
  | nil =>
    intro i0 i h1 h2 _ _
    simp at h2
  | cons c rest ih =>
    intro i0 i h1 h2 hf hb
    rcases Nat.eq_or_lt_of_le h1 with heq | hlt
    · subst heq
      have hz : i0 - i0 = 0 := by omega
      simp only [processChunksT, hf, Bool.false_eq_true, if_false, hz, List.range_zero,
        List.map_nil, List.flatten_nil, List.nil_append]
    · have h0 : eo i0 = true := hb i0 (Nat.le_refl _) hlt
      have ihh := ih (i0 + 1) i hlt (by simp at h2; omega) hf
        (fun j hj1 hj2 => hb j (by omega) hj2)
      have hsz : i - i0 = (i - (i0 + 1)) + 1 := by omega
      have harg : (fun k => chunkBlock oc d1 d2 n (i0 + (k + 1)))
          = (fun k => chunkBlock oc d1 d2 n (i0 + 1 + k)) := by
        funext k
        rw [show i0 + (k + 1) = i0 + 1 + k from by omega]
      simp only [processChunksT, h0, if_true, ihh]
      simp only [hsz, range_map_succ, Nat.add_zero, List.flatten_cons, harg,
        List.append_assoc]

theorem touchesTemp_sd (i : Nat) (s : SDEvent) : touchesTemp (sdEvToEv i s) = false := by
  cases s <;> rfl

theorem touchesTemp_transcribe (outcome : Nat → Option String) (retries : Nat) :
    ∀ (l : List Nat) (e : Ev), e ∈ (transcribe_chunkGo outcome retries l).2 →
      touchesTemp e = false := by
  intro l
  induction l with
  | nil =>
    intro e he
    simp [transcribe_chunkGo] at he
  | cons a rest ih =>
    intro e he
    simp only [transcribe_chunkGo] at he
    rcases hoc : outcome a with _ | t <;> rw [hoc] at he
    · by_cases hlt : a < retries - 1
      · rw [if_pos hlt] at he
        simp only [List.mem_cons] at he
        rcases he with h | h | h | h
        · subst h; rfl
        · subst h; rfl
        · subst h; rfl
        · exact ih e h
      · rw [if_neg hlt] at he
        simp only [List.mem_cons, List.mem_singleton] at he
        rcases he with h | h | h
        · subst h; rfl
        · subst h; rfl
        · cases h
    · simp only [List.mem_singleton] at he
      subst he; rfl

theorem mem_chunkBlock (oc : Nat → Nat → Option String) (d1 d2 : Nat → UnlinkResult)
    (n m : Nat) (e : Ev) (he : e ∈ chunkBlock oc d1 d2 n m) :
    touchesTemp e = false ∨ e = .createTempE m
      ∨ e = .deleteE m (safe_delete true (d1 m) (d2 m)).1 := by
  have he' : e ∈ ([Ev.progressE (m + 1) n, Ev.createTempE m, Ev.exportE m]
      ++ (transcribe_chunkT (oc m) 3).2
      ++ (Ev.deleteE m (safe_delete true (d1 m) (d2 m)).1
          :: (safe_delete true (d1 m) (d2 m)).2.map (sdEvToEv m))) := he
  rcases List.mem_append.mp he' with h | h
  · rcases List.mem_append.mp h with h2 | h2
    · rcases List.mem_cons.mp h2 with h3 | h3
      · subst h3; exact Or.inl rfl
      rcases List.mem_cons.mp h3 with h4 | h4
      · subst h4; exact Or.inr (Or.inl rfl)
      rcases List.mem_cons.mp h4 with h5 | h5
      · subst h5; exact Or.inl rfl
      · exact absurd h5 (List.not_mem_nil e)
    · exact Or.inl (touchesTemp_transcribe _ _ _ e h2)
  · rcases List.mem_cons.mp h with h2 | h2
    · subst h2; exact Or.inr (Or.inr rfl)
    · obtain ⟨s, _, hs⟩ := List.mem_map.mp h2
      subst hs
      exact Or.inl (touchesTemp_sd m s)

theorem chkInFlight_append (xs : List Ev) : ∀ (s : List Nat) (ys : List Ev),
    chkInFlight s (xs ++ ys)
      = (chkInFlight s xs && chkInFlight (xs.foldl inFlightStep s) ys) := by
  induction xs with
  | nil => intro s ys; simp [chkInFlight]
  | cons e rest ih =>
    intro s ys
    simp only [List.cons_append, chkInFlight, List.foldl_cons, ih, Bool.and_assoc,
      List.append_eq]

theorem foldl_no_touch : ∀ (evs : List Ev) (s : List Nat),
    (∀ e ∈ evs, touchesTemp e = false) → evs.foldl inFlightStep s = s := by
  intro evs
  induction evs with
  | nil => intro s _; rfl
  | cons e rest ih =>
    intro s h
    have he : touchesTemp e = false := h e (by simp)
    have hstep : inFlightStep s e = s := by
      cases e <;> first | rfl | (simp [touchesTemp] at he)
    rw [List.foldl_cons, hstep]
    exact ih s (fun e' he' => h e' (List.mem_cons_of_mem _ he'))

theorem chk_no_touch : ∀ (evs : List Ev) (s : List Nat),
    (∀ e ∈ evs, touchesTemp e = false) → s.length ≤ 1 → chkInFlight s evs = true := by
  intro evs
  induction evs with
  | nil => intro s _ _; rfl
  | cons e rest ih =>
    intro s h hs
    have he : touchesTemp e = false := h e (by simp)
    have hstep : inFlightStep s e = s := by
      cases e <;> first | rfl | (simp [touchesTemp] at he)
    simp only [chkInFlight, hstep, Bool.and_eq_true, decide_eq_true_eq]
    exact ⟨hs, ih s (fun e' he' => h e' (List.mem_cons_of_mem _ he')) hs⟩

theorem sd_no_touch (m : Nat) (l : List SDEvent) :
    ∀ e ∈ l.map (sdEvToEv m), touchesTemp e = false := by
  intro e he
  simp only [List.mem_map] at he
  obtain ⟨s, _, hs⟩ := he
  subst hs
  exact touchesTemp_sd m s

theorem chkInFlight_block (oc : Nat → Nat → Option String) (d1 d2 : Nat → UnlinkResult)
    (n m : Nat) :
    chkInFlight [] (chunkBlock oc d1 d2 n m) = true ∧
    (chunkBlock oc d1 d2 n m).foldl inFlightStep [] = [] := by
  have htr : ∀ e ∈ (transcribe_chunkT (oc m) 3).2, touchesTemp e = false :=
    fun e he => touchesTemp_transcribe (oc m) 3 (List.range 3) e he
  have hsd := sd_no_touch m (safe_delete true (d1 m) (d2 m)).2
  have hb : chunkBlock oc d1 d2 n m
      = [Ev.progressE (m + 1) n, Ev.createTempE m, Ev.exportE m]
        ++ (transcribe_chunkT (oc m) 3).2
        ++ (Ev.deleteE m (safe_delete true (d1 m) (d2 m)).1
            :: (safe_delete true (d1 m) (d2 m)).2.map (sdEvToEv m)) := rfl
  have h1 : chkInFlight [] [Ev.progressE (m + 1) n, Ev.createTempE m, Ev.exportE m]
      = true := rfl
  have h2 : List.foldl inFlightStep []
      [Ev.progressE (m + 1) n, Ev.createTempE m, Ev.exportE m] = [m] := rfl
  have h3 : chkInFlight [m] (transcribe_chunkT (oc m) 3).2 = true :=
    chk_no_touch _ [m] htr (by simp)
  have h4 : List.foldl inFlightStep [m] (transcribe_chunkT (oc m) 3).2 = [m] :=
    foldl_no_touch _ [m] htr
  have h5 : inFlightStep [m] (Ev.deleteE m (safe_delete true (d1 m) (d2 m)).1) = [] := by
    simp [inFlightStep]
  have h7 : chkInFlight [] ((safe_delete true (d1 m) (d2 m)).2.map (sdEvToEv m)) = true :=
    chk_no_touch _ [] hsd (by simp)
  constructor
  · rw [hb, chkInFlight_append, chkInFlight_append, List.foldl_append, h1, h2, h3, h4]
    simp only [Bool.true_and]
    simp only [chkInFlight, h5, h7, List.length_nil]
    rfl
  · rw [hb, List.foldl_append, List.foldl_append, h2, h4, List.foldl_cons, h5]
    exact foldl_no_touch _ [] hsd

theorem chkInFlight_flatten : ∀ (l : List (List Ev)),
    (∀ b ∈ l, chkInFlight [] b = true ∧ b.foldl inFlightStep [] = []) →
    chkInFlight [] l.flatten = true := by
  intro l
  induction l with
  | nil => intro _; rfl
  | cons b rest ih =>
    intro h
    have hb := h b (by simp)
    rw [List.flatten_cons, chkInFlight_append, hb.1, hb.2]
    simp only [Bool.true_and]
    exact ih (fun b' hb' => h b' (List.mem_cons_of_mem _ hb'))

theorem safe_delete_false_warn (f s : UnlinkResult)
    (h : (safe_delete true f s).1 = false) :
    SDEvent.warn ∈ (safe_delete true f s).2 := by
  cases f <;> cases s <;> simp [safe_delete] at h ⊢

theorem transcribe_all_fail (outcome : Nat → Option String)
    (hf : ∀ a, outcome a = none) :
    transcribe_chunk outcome 3 = ""
      ∧ Ev.errorChunkE ∈ (transcribe_chunkT outcome 3).2 := by
  have h : List.range 3 = [0, 1, 2] := rfl
  unfold transcribe_chunk transcribe_chunkT
  rw [h]
  simp [transcribe_chunkGo, hf]

theorem process_long_audioT_ok (D : Nat) (eo : Nat → Bool)
    (oc : Nat → Nat → Option String) (d1 d2 : Nat → UnlinkResult)
    (he : ∀ i, eo i = true) :
    process_long_audioT (some D) eo oc d1 d2
      = (String.intercalate sep (transcriptList oc (split_audio D 2).length),
        ((List.range (split_audio D 2).length).map
          (fun i => chunkBlock oc d1 d2 (split_audio D 2).length i)).flatten) := by
  have hok := processChunksT_ok eo oc d1 d2 (split_audio D 2).length he (split_audio D 2) 0
  have hz1 : (fun k => transcribe_chunk (oc (0 + k)) 3)
      = (fun k => transcribe_chunk (oc k) 3) := by
    funext k
    rw [Nat.zero_add]
  have hz2 : (fun k => chunkBlock oc d1 d2 (split_audio D 2).length (0 + k))
      = (fun k => chunkBlock oc d1 d2 (split_audio D 2).length k) := by
    funext k
    rw [Nat.zero_add]
  rw [hz1, hz2] at hok
  by_cases hN : (split_audio D 2).isEmpty
  · have hnil : split_audio D 2 = [] := by
      revert hN
      cases split_audio D 2 <;> simp
    show process_long_audioT (some D) eo oc d1 d2 = _
    unfold process_long_audioT split_audioT
    simp [hnil, transcriptList]
    rfl
  · have hne : (split_audio D 2).isEmpty = false := by
      revert hN
      cases (split_audio D 2).isEmpty <;> simp
    show process_long_audioT (some D) eo oc d1 d2 = _
    unfold process_long_audioT split_audioT
    simp only [hne, Bool.false_eq_true, if_false, hok, List.nil_append, transcriptList]

theorem createTemp_mem_flatten_blocks (oc : Nat → Nat → Option String)
    (d1 d2 : Nat → UnlinkResult) (n : Nat) (L : List Nat) (j : Nat)
    (h : Ev.createTempE j ∈ (L.map (fun k => chunkBlock oc d1 d2 n k)).flatten) :
    j ∈ L := by
  obtain ⟨b, hbL, hjb⟩ := List.mem_flatten.mp h
  obtain ⟨k, hkL, rfl⟩ := List.mem_map.mp hbL
  rcases mem_chunkBlock oc d1 d2 n k _ hjb with h1 | h1 | h1
  · simp [touchesTemp] at h1
  · injection h1 with h2
    subst h2
    exact hkL
  · simp at h1

theorem delete_mem_flatten_blocks (oc : Nat → Nat → Option String)
    (d1 d2 : Nat → UnlinkResult) (n : Nat) (L : List Nat) (j : Nat) (b : Bool)
    (h : Ev.deleteE j b ∈ (L.map (fun k => chunkBlock oc d1 d2 n k)).flatten) :
    j ∈ L := by
  obtain ⟨bl, hbL, hjb⟩ := List.mem_flatten.mp h
  obtain ⟨k, hkL, rfl⟩ := List.mem_map.mp hbL
  rcases mem_chunkBlock oc d1 d2 n k _ hjb with h1 | h1 | h1
  · simp [touchesTemp] at h1
  · simp at h1
  · injection h1 with h2 h3
    subst h2
    exact hkL

theorem createTemp_mem_block (oc : Nat → Nat → Option String)
    (d1 d2 : Nat → UnlinkResult) (n m : Nat) :
    Ev.createTempE m ∈ chunkBlock oc d1 d2 n m := by
  simp [chunkBlock]

theorem delete_mem_block (oc : Nat → Nat → Option String)
    (d1 d2 : Nat → UnlinkResult) (n m : Nat) :
    Ev.deleteE m (safe_delete true (d1 m) (d2 m)).1 ∈ chunkBlock oc d1 d2 n m := by
  simp [chunkBlock]

theorem warn_mem_block (oc : Nat → Nat → Option String)
    (d1 d2 : Nat → UnlinkResult) (n m : Nat)
    (h : (safe_delete true (d1 m) (d2 m)).1 = false) :
    Ev.warnDeleteE m ∈ chunkBlock oc d1 d2 n m := by
  have hw := safe_delete_false_warn (d1 m) (d2 m) h
  have : Ev.warnDeleteE m ∈ (safe_delete true (d1 m) (d2 m)).2.map (sdEvToEv m) :=
    List.mem_map.mpr ⟨SDEvent.warn, hw, rfl⟩
  simp only [chunkBlock, List.mem_append, List.mem_cons]
  exact Or.inr (Or.inr this)

-- Claim theorems ---------------------------------------------------------

/-- C2: for every source that splits into `N ≥ 1` chunks (and whose chunk
exports succeed, so that every chunk reaches its transcription call), the
transcript returned by `process_long_audio` is the concatenation of the `N`
per-chunk transcription results joined by the paragraph separator, in chunk
sequence-index order, and that list of paragraphs has exactly `N` entries,
one per chunk index. -/
theorem process_long_audio_ordered (D : Nat) (eo : Nat → Bool)
    (oc : Nat → Nat → Option String) (d1 d2 : Nat → UnlinkResult)
    (_hN : 0 < (split_audio D 2).length) (he : ∀ i, eo i = true) :
    OrderedTranscriptSpec D eo oc d1 d2 := by
  constructor
  · show process_long_audio (some D) eo oc d1 d2 = _
    unfold process_long_audio
    rw [process_long_audioT_ok D eo oc d1 d2 he]
  · simp [transcriptList]

/-- C2 witness: the two-chunk source `D = 150000` ms with every remote call
succeeding. -/
theorem process_long_audio_ordered_witness :
    0 < (split_audio 150000 2).length ∧
    OrderedTranscriptSpec 150000 (fun _ => true) (fun _ _ => some "hi")
      (fun _ => .ok) (fun _ => .ok) :=
  ⟨by decide, process_long_audio_ordered 150000 (fun _ => true) (fun _ _ => some "hi")
    (fun _ => .ok) (fun _ => .ok) (by decide) (fun _ => rfl)⟩

/-- C3: for every chunk `i` whose remote transcription call fails on all
`maxRetries = 3` attempts, `transcribe_chunk` returns the empty string after
reporting the failure, and the job continues: the transcript is still the
join of one paragraph per chunk, with the empty string at index `i` (not a
missing index and not a job abort). -/
theorem transcribe_failed_chunk (D i : Nat) (eo : Nat → Bool)
    (oc : Nat → Nat → Option String) (d1 d2 : Nat → UnlinkResult)
    (_hN : 0 < (split_audio D 2).length) (hi : i < (split_audio D 2).length)
    (he : ∀ j, eo j = true) (hf : ∀ a, oc i a = none) :
    FailedChunkSpec D i eo oc d1 d2 := by
  have hall := transcribe_all_fail (oc i) hf
  refine ⟨hall.1, hall.2, ?_, by simp [transcriptList], ?_⟩
  · show process_long_audio (some D) eo oc d1 d2 = _
    unfold process_long_audio
    rw [process_long_audioT_ok D eo oc d1 d2 he]
  · show (transcriptList oc (split_audio D 2).length).getD i "MISSING" = ""
    unfold transcriptList
    rw [getD_range_map _ _ _ _ hi]
    exact hall.1

/-- C3 witness: `D = 150000` ms, chunk 0's remote call always fails while
chunk 1 succeeds. -/
theorem transcribe_failed_chunk_witness :
    0 < (split_audio 150000 2).length ∧
    FailedChunkSpec 150000 0 (fun _ => true)
      (fun j _ => if j = 0 then none else some "ok") (fun _ => .ok) (fun _ => .ok) :=
  ⟨by decide, transcribe_failed_chunk 150000 0 (fun _ => true)
    (fun j _ => if j = 0 then none else some "ok") (fun _ => .ok) (fun _ => .ok)
    (by decide) (by decide) (fun _ => rfl) (fun _ => rfl)⟩

/-- C4 counterexample: on a two-chunk source where chunk 0's export fails
and every remote call would return a nonempty text, the job returns the
empty transcript — chunk 0's content is not treated as empty and processing
does not continue with chunk 1, whose text (predicted transcript shown in
the second conjunct) never appears. -/
theorem export_failure_counterexample :
    (process_long_audioT (some 150000) (fun i => i != 0) (fun _ _ => some "hello")
      (fun _ => .ok) (fun _ => .ok)).1 = "" ∧
    String.intercalate sep ["", "hello"] ≠ "" := by decide

/-- C4 (amended): if exporting chunk `i` fails (and every earlier export
succeeded), the raised exception escapes the loop and is caught at the top
level: the job reports a processing error and returns the empty transcript;
no chunk after `i` is started and chunk `i`'s temp file is never passed to
`safe_delete`. -/
theorem export_failure_aborts (D i : Nat) (eo : Nat → Bool)
    (oc : Nat → Nat → Option String) (d1 d2 : Nat → UnlinkResult)
    (hi : i < (split_audio D 2).length) (hfail : eo i = false)
    (hb : ∀ j, j < i → eo j = true) :
    ExportAbortSpec D i eo oc d1 d2 := by
  have herr := processChunksT_err_trace eo oc d1 d2 (split_audio D 2).length
    (split_audio D 2) 0 i (Nat.zero_le i) (by omega) hfail (fun j _ hj2 => hb j hj2)
  have hz : (fun k => chunkBlock oc d1 d2 (split_audio D 2).length (0 + k))
      = (fun k => chunkBlock oc d1 d2 (split_audio D 2).length k) := by
    funext k
    rw [Nat.zero_add]
  rw [Nat.sub_zero, hz] at herr
  have hne : (split_audio D 2).isEmpty = false := by
    rw [List.isEmpty_eq_false]
    exact List.ne_nil_of_length_pos (by omega)
  have hr : process_long_audioT (some D) eo oc d1 d2
      = ("", (((List.range i).map
            (fun k => chunkBlock oc d1 d2 (split_audio D 2).length k)).flatten
          ++ [.progressE (i + 1) (split_audio D 2).length, .createTempE i])
          ++ [.errorProcE]) := by
    unfold process_long_audioT split_audioT
    simp only [hne, Bool.false_eq_true, if_false, herr, List.nil_append]
  refine ⟨?_, ?_, ?_, ?_⟩
  · show (process_long_audioT (some D) eo oc d1 d2).1 = ""
    rw [hr]
  · show Ev.errorProcE ∈ (process_long_audioT (some D) eo oc d1 d2).2
    rw [hr]
    simp
  · intro j hj hmem
    rw [hr] at hmem
    simp only [List.mem_append, List.mem_cons, List.not_mem_nil, or_false] at hmem
    rcases hmem with (hm | hm | hm) | hm
    · have := createTemp_mem_flatten_blocks oc d1 d2 _ _ _ hm
      rw [List.mem_range] at this
      omega
    · cases hm
    · injection hm with h2
      omega
    · cases hm
  · intro b hmem
    rw [hr] at hmem
    simp only [List.mem_append, List.mem_cons, List.not_mem_nil, or_false] at hmem
    rcases hmem with (hm | hm | hm) | hm
    · have := delete_mem_flatten_blocks oc d1 d2 _ _ _ _ hm
      rw [List.mem_range] at this
      omega
    · cases hm
    · cases hm
    · cases hm

/-- C4 witness for the amended claim: export of chunk 0 fails on the
two-chunk source. -/
theorem export_failure_aborts_witness :
    0 < (split_audio 150000 2).length ∧
    ExportAbortSpec 150000 0 (fun i => i != 0) (fun _ _ => some "hello")
      (fun _ => .ok) (fun _ => .ok) :=
  ⟨by decide, export_failure_aborts 150000 0 (fun i => i != 0) (fun _ _ => some "hello")
    (fun _ => .ok) (fun _ => .ok) (by decide) rfl (fun j hj => absurd hj (by omega))⟩

/-- C5 counterexample: a chunk failing on every attempt with
`maxRetries = 3` sleeps 5s and then 10s — the claimed delay sequence
5s, 10s, 20s does not occur, because no sleep follows the final failed
attempt. -/
theorem backoff_counterexample :
    sleepsOf (transcribe_chunkT (fun _ => none) 3).2 = [5, 10] ∧
    sleepsOf (transcribe_chunkT (fun _ => none) 3).2 ≠ [5, 10, 20] := by decide

/-- C5 (amended): for every chunk failing on all attempts with
`maxRetries = 3`, the delays actually slept between attempts are
`5 * 2 ^ 0 = 5` s and `5 * 2 ^ 1 = 10` s — one wait of `5 * 2 ^ attempt`
seconds before each retry (geometric, base 5, ratio 2), hence
`maxRetries - 1 = 2` sleeps in total, since no delay follows the final
attempt. -/
theorem backoff_delays (outcome : Nat → Option String)
    (hf : ∀ a, a < 3 → outcome a = none) :
    sleepsOf (transcribe_chunkT outcome 3).2 = [5 * 2 ^ 0, 5 * 2 ^ 1] := by
  have h0 := hf 0 (by omega)
  have h1 := hf 1 (by omega)
  have h2 := hf 2 (by omega)
  have h : List.range 3 = [0, 1, 2] := rfl
  unfold transcribe_chunkT
  rw [h]
  simp [transcribe_chunkGo, h0, h1, h2, sleepsOf]

/-- C5 witness: the always-failing remote-call oracle. -/
theorem backoff_delays_witness :
    (∀ a : Nat, a < 3 → (fun _ : Nat => (none : Option String)) a = none) ∧
    sleepsOf (transcribe_chunkT (fun _ => none) 3).2 = [5 * 2 ^ 0, 5 * 2 ^ 1] :=
  ⟨fun _ _ => rfl, backoff_delays (fun _ => none) (fun _ _ => rfl)⟩

/-- C6: if any export raises during the per-chunk loop (the loop's modelled
source of unexpected exceptions), the exception is caught at the top level,
reported as a processing error, and `process_long_audio` returns the empty
string, discarding whatever partial transcript had been assembled. -/
theorem unexpected_exception_aborts (D : Nat) (eo : Nat → Bool)
    (oc : Nat → Nat → Option String) (d1 d2 : Nat → UnlinkResult)
    (hex : ∃ i, i < (split_audio D 2).length ∧ eo i = false) :
    process_long_audio (some D) eo oc d1 d2 = "" ∧
    Ev.errorProcE ∈ (process_long_audioT (some D) eo oc d1 d2).2 := by
  obtain ⟨i, hi, hf⟩ := hex
  obtain ⟨evs, hevs⟩ := processChunksT_err_exists eo oc d1 d2 (split_audio D 2).length
    (split_audio D 2) 0 ⟨i, hi, by rwa [Nat.zero_add]⟩
  have hne : (split_audio D 2).isEmpty = false := by
    rw [List.isEmpty_eq_false]
    exact List.ne_nil_of_length_pos (by omega)
  unfold process_long_audio process_long_audioT split_audioT
  simp only [hne, Bool.false_eq_true, if_false, hevs, List.nil_append]
  simp

/-- C6 witness: chunk 0 transcribes `"hello"` but chunk 1's export fails;
the partial transcript is discarded. -/
theorem unexpected_exception_aborts_witness :
    (∃ i, i < (split_audio 150000 2).length ∧ (fun j => j == 0) i = false) ∧
    process_long_audio (some 150000) (fun j => j == 0) (fun _ _ => some "hello")
      (fun _ => .ok) (fun _ => .ok) = "" ∧
    Ev.errorProcE ∈ (process_long_audioT (some 150000) (fun j => j == 0)
      (fun _ _ => some "hello") (fun _ => .ok) (fun _ => .ok)).2 :=
  ⟨⟨1, by decide, rfl⟩, unexpected_exception_aborts 150000 (fun j => j == 0)
    (fun _ _ => some "hello") (fun _ => .ok) (fun _ => .ok) ⟨1, by decide, rfl⟩⟩

/-- C7: for a source path that fails to load and for a zero-duration
source, `split_audio` yields the empty sequence without raising, and
`process_long_audio` returns an empty transcript immediately: no temp file
is created and no transcription call is made. -/
theorem empty_source_empty_transcript (load : Option Nat) (eo : Nat → Bool)
    (oc : Nat → Nat → Option String) (d1 d2 : Nat → UnlinkResult)
    (h : load = none ∨ load = some 0) :
    (split_audioT load 2).1 = [] ∧
    process_long_audio load eo oc d1 d2 = "" ∧
    (∀ i, Ev.createTempE i ∉ (process_long_audioT load eo oc d1 d2).2) ∧
    (∀ a, Ev.remoteCallE a ∉ (process_long_audioT load eo oc d1 d2).2) := by
  rcases h with rfl | rfl
  · exact ⟨rfl, rfl, fun i => by simp [process_long_audioT, split_audioT],
      fun a => by simp [process_long_audioT, split_audioT]⟩
  · have h0 : split_audio 0 2 = [] := rfl
    exact ⟨h0, rfl, fun i => by simp [process_long_audioT, split_audioT, h0],
      fun a => by simp [process_long_audioT, split_audioT, h0]⟩

/-- C7 witness: the failed-load source. -/
theorem empty_source_empty_transcript_witness :
    ((none : Option Nat) = none ∨ (none : Option Nat) = some 0) ∧
    ((split_audioT (none : Option Nat) 2).1 = [] ∧
      process_long_audio none (fun _ => true) (fun _ _ => some "x")
        (fun _ => .ok) (fun _ => .ok) = "" ∧
      (∀ i, Ev.createTempE i ∉ (process_long_audioT none (fun _ => true)
        (fun _ _ => some "x") (fun _ => .ok) (fun _ => .ok)).2) ∧
      (∀ a, Ev.remoteCallE a ∉ (process_long_audioT none (fun _ => true)
        (fun _ _ => some "x") (fun _ => .ok) (fun _ => .ok)).2)) :=
  ⟨Or.inl rfl, empty_source_empty_transcript none (fun _ => true) (fun _ _ => some "x")
    (fun _ => .ok) (fun _ => .ok) (Or.inl rfl)⟩

/-- C9 counterexample: on a one-chunk source whose export fails, the chunk's
temp file is created (the `with NamedTemporaryFile` block runs before the
export raises) but `safe_delete` is never invoked on it and no deletion
warning is emitted — the file is silently leaked, refuting the claim that
every created temp file is deleted or reported with a warning. -/
theorem temp_leak_counterexample :
    process_long_audioT (some 1) (fun _ => false) (fun _ _ => none)
      (fun _ => .ok) (fun _ => .ok)
      = ("", [.progressE 1 1, .createTempE 0, .errorProcE]) ∧
    Ev.createTempE 0 ∈ [Ev.progressE 1 1, Ev.createTempE 0, Ev.errorProcE] ∧
    (∀ b : Bool, Ev.deleteE 0 b ∉ [Ev.progressE 1 1, Ev.createTempE 0, Ev.errorProcE]) ∧
    Ev.warnDeleteE 0 ∉ [Ev.progressE 1 1, Ev.createTempE 0, Ev.errorProcE] := by decide

/-- C9 (amended): throughout every run of `process_long_audio` in which all
chunk exports succeed, at most one chunk temp file is in flight at any
instant; the trace is exactly the per-chunk blocks in order — each chunk's
temp file is created immediately before its transcription attempts and
`safe_delete` is invoked on it immediately after they return, before chunk
`i+1` starts — and every created temp file is either deleted or reported as
leaked with a warning.  (When an export fails, the already-created temp
file of that chunk is silently leaked, as the counterexample shows.) -/
theorem temp_lifecycle (D : Nat) (eo : Nat → Bool)
    (oc : Nat → Nat → Option String) (d1 d2 : Nat → UnlinkResult)
    (he : ∀ i, eo i = true) :
    TempLifecycleSpec D eo oc d1 d2 := by
  have hok := process_long_audioT_ok D eo oc d1 d2 he
  refine ⟨?_, ?_, ?_⟩
  · show (process_long_audioT (some D) eo oc d1 d2).2 = _
    rw [hok]
  · show chkInFlight [] (process_long_audioT (some D) eo oc d1 d2).2 = true
    rw [hok]
    apply chkInFlight_flatten
    intro b hb
    obtain ⟨k, _, rfl⟩ := List.mem_map.mp hb
    exact chkInFlight_block oc d1 d2 _ k
  · intro i hi
    have hbm : chunkBlock oc d1 d2 (split_audio D 2).length i
        ∈ (List.range (split_audio D 2).length).map
          (fun k => chunkBlock oc d1 d2 (split_audio D 2).length k) :=
      List.mem_map.mpr ⟨i, List.mem_range.mpr hi, rfl⟩
    refine ⟨?_, ?_, ?_⟩
    · show Ev.createTempE i ∈ (process_long_audioT (some D) eo oc d1 d2).2
      rw [hok]
      exact List.mem_flatten.mpr ⟨_, hbm, createTemp_mem_block oc d1 d2 _ i⟩
    · show Ev.deleteE i (safe_delete true (d1 i) (d2 i)).1
        ∈ (process_long_audioT (some D) eo oc d1 d2).2
      rw [hok]
      exact List.mem_flatten.mpr ⟨_, hbm, delete_mem_block oc d1 d2 _ i⟩
    · intro hfalse
      show Ev.warnDeleteE i ∈ (process_long_audioT (some D) eo oc d1 d2).2
      rw [hok]
      exact List.mem_flatten.mpr ⟨_, hbm, warn_mem_block oc d1 d2 _ i hfalse⟩

/-- C9 witness for the amended claim: two chunks, all exports succeed, every
`safe_delete` fails after its retry, so each chunk's warning appears. -/
theorem temp_lifecycle_witness :
    (∀ i : Nat, (fun _ : Nat => true) i = true) ∧
    TempLifecycleSpec 150000 (fun _ => true) (fun _ _ => some "hi")
      (fun _ => .permissionError) (fun _ => .otherError) :=
  ⟨fun _ => rfl, temp_lifecycle 150000 (fun _ => true) (fun _ _ => some "hi")
    (fun _ => .permissionError) (fun _ => .otherError) (fun _ => rfl)⟩

end AudioTranscript
